import Mathlib

/-!
Verification development for the naming core of the python-ndn repository
(NDN Name/Component value types, their canonical ordering, numeric
conventions, text codec) and for the NDN-DPDK prefix-registration client.

The repository snapshot contains the transport files
(`src/ndn/transport/ndn_dpdk.py`, `src/ndn/transport/graphql.py`) and the
exhaustive test suite `tests/encoding/name_test.py`, but the module
`ndn/encoding/name.py` that the tests exercise is not part of the snapshot.
The Name/Component definitions below are therefore modelled from the
specification (spec.md sections 3 to 4.5), cross-checked against the
behaviour pinned by `tests/encoding/name_test.py`.  Python byte strings
and text strings are both embedded as `List Nat` of byte / character-code
values; fallible operations return `Except Unit`.
-/

/-- Modelled from the spec: ordering comparison of two unsigned integers,
as used for the type key and the length key of the canonical Component
comparator (spec 4.2). -/
def cmpNat (a b : Nat) : Ordering :=
  if a < b then .lt else if a = b then .eq else .gt

/-- Modelled from the spec: byte-for-byte lexicographic comparison of two
byte sequences as unsigned bytes (spec 4.2, comparison key 3). -/
def cmpBytes : List Nat → List Nat → Ordering
  | [], [] => .eq
  | [], _ :: _ => .lt
  | _ :: _, [] => .gt
  | a :: as, b :: bs =>
    match cmpNat a b with
    | .eq => cmpBytes as bs
    | o => o

/-- Modelled from the spec: a Component is a TLV triplet; following the
spec's data model (section 3 and design note 9) it is embedded as the
structured pair of its decoded `type` field and its `value` bytes.  The
binary form is recovered by `Component.encode`. -/
structure Component where
  typ : Nat
  value : List Nat
deriving DecidableEq, Repr

/-- Modelled from the spec: keys 2 and 3 of the canonical Component
comparator (spec 4.2): value byte count first, then value bytes
lexicographically. -/
def cmpLenVal (v w : List Nat) : Ordering :=
  match cmpNat v.length w.length with
  | .eq => cmpBytes v w
  | o => o

/-- Modelled from the spec: the canonical Component comparator of spec 4.2,
three keys in order: type as unsigned integer, then value byte count,
then value bytes lexicographically. -/
def Component.compare (a b : Component) : Ordering :=
  match cmpNat a.typ b.typ with
  | .eq => cmpLenVal a.value b.value
  | o => o

/-- Modelled from the spec: a Name is an ordered sequence of Components
(spec section 3). -/
abbrev Name := List Component

/-- Modelled from the spec: the canonical Name comparator of spec 4.5,
lexicographic over the component sequence with the shorter strict prefix
ordering first. -/
def Name.compare : Name → Name → Ordering
  | [], [] => .eq
  | [], _ :: _ => .lt
  | _ :: _, [] => .gt
  | a :: as, b :: bs =>
    match Component.compare a b with
    | .eq => Name.compare as bs
    | o => o

/-- Modelled from the spec: `Name.is_prefix` of spec 4.5, true iff
`len(a) <= len(b)` and every component of `a` is canonically equal to the
corresponding component of `b`.  (Named `is_prefix_of` here.) -/
def Name.is_prefix_of (a b : Name) : Bool :=
  Nat.ble a.length b.length &&
    (List.zip a b).all fun p => decide (Component.compare p.1 p.2 = Ordering.eq)

-- ## Comparator laws

theorem cmpNat_eq_iff {a b : Nat} : cmpNat a b = .eq ↔ a = b := by
  unfold cmpNat
  rcases Nat.lt_trichotomy a b with h | h | h
  · rw [if_pos h]; simp; omega
  · subst h; rw [if_neg (by omega), if_pos rfl]; simp
  · rw [if_neg (by omega), if_neg (by omega)]; simp; omega

theorem cmpNat_lt_iff {a b : Nat} : cmpNat a b = .lt ↔ a < b := by
  unfold cmpNat
  rcases Nat.lt_trichotomy a b with h | h | h
  · rw [if_pos h]; simpa using h
  · subst h; rw [if_neg (by omega), if_pos rfl]; simp
  · rw [if_neg (by omega), if_neg (by omega)]; simp; omega

theorem cmpNat_gt_iff {a b : Nat} : cmpNat a b = .gt ↔ b < a := by
  unfold cmpNat
  rcases Nat.lt_trichotomy a b with h | h | h
  · rw [if_pos h]; simp; omega
  · subst h; rw [if_neg (by omega), if_pos rfl]; simp
  · rw [if_neg (by omega), if_neg (by omega)]; simpa using h

theorem cmpNat_swap (a b : Nat) : cmpNat b a = (cmpNat a b).swap := by
  unfold cmpNat
  rcases Nat.lt_trichotomy a b with h | h | h
  · rw [if_pos h, if_neg (by omega : ¬ b < a), if_neg (by omega : ¬ b = a)]; rfl
  · subst h
    rw [if_neg (by omega : ¬ a < a), if_pos rfl]; rfl
  · rw [if_pos h, if_neg (by omega : ¬ a < b), if_neg (by omega : ¬ a = b)]; rfl

theorem cmpBytes_eq_iff : ∀ {xs ys : List Nat}, cmpBytes xs ys = .eq ↔ xs = ys := by
  intro xs
  induction xs with
  | nil => intro ys; cases ys <;> simp [cmpBytes]
  | cons a as ih =>
    intro ys
    cases ys with
    | nil => simp [cmpBytes]
    | cons b bs =>
      simp only [cmpBytes]
      rcases h : cmpNat a b with _ | _ | _
      · simp only [List.cons.injEq]
        constructor
        · intro hc; cases hc
        · rintro ⟨rfl, rfl⟩
          rw [cmpNat_eq_iff.mpr rfl] at h; cases h
      · rw [cmpNat_eq_iff] at h
        subst h
        simp only [List.cons.injEq, true_and]
        exact ih
      · simp only [List.cons.injEq]
        constructor
        · intro hc; cases hc
        · rintro ⟨rfl, rfl⟩
          rw [cmpNat_eq_iff.mpr rfl] at h; cases h

theorem cmpBytes_swap : ∀ (xs ys : List Nat), cmpBytes ys xs = (cmpBytes xs ys).swap := by
  intro xs
  induction xs with
  | nil => intro ys; cases ys <;> rfl
  | cons a as ih =>
    intro ys
    cases ys with
    | nil => rfl
    | cons b bs =>
      simp only [cmpBytes, cmpNat_swap a b]
      rcases cmpNat a b with _ | _ | _
      · rfl
      · exact ih bs
      · rfl

theorem cmpBytes_lt_trans : ∀ {xs ys zs : List Nat},
    cmpBytes xs ys = .lt → cmpBytes ys zs = .lt → cmpBytes xs zs = .lt := by
  intro xs
  induction xs with
  | nil =>
    intro ys zs h1 h2
    cases ys with
    | nil => cases h1
    | cons b bs =>
      cases zs with
      | nil => cases h2
      | cons c cs => rfl
  | cons a as ih =>
    intro ys zs h1 h2
    cases ys with
    | nil => cases h1
    | cons b bs =>
      cases zs with
      | nil => cases h2
      | cons c cs =>
        simp only [cmpBytes] at h1 h2 ⊢
        rcases hab : cmpNat a b with _ | _ | _ <;> rw [hab] at h1
        · -- a < b
          rcases hbc : cmpNat b c with _ | _ | _ <;> rw [hbc] at h2
          · rw [cmpNat_lt_iff] at hab hbc
            rw [show cmpNat a c = .lt from cmpNat_lt_iff.mpr (by omega)]
          · rw [cmpNat_eq_iff] at hbc; subst hbc; rw [hab]
          · cases h2
        · rw [cmpNat_eq_iff] at hab; subst hab
          rcases hbc : cmpNat a c with _ | _ | _
          · rfl
          · rw [hbc] at h2
            exact ih h1 h2
          · rw [hbc] at h2
            cases h2
        · cases h1

theorem cmpLenVal_eq_iff {v w : List Nat} : cmpLenVal v w = .eq ↔ v = w := by
  unfold cmpLenVal
  rcases hl : cmpNat v.length w.length with _ | _ | _
  · constructor
    · intro hc; cases hc
    · rintro rfl; rw [cmpNat_eq_iff.mpr rfl] at hl; cases hl
  · exact cmpBytes_eq_iff
  · constructor
    · intro hc; cases hc
    · rintro rfl; rw [cmpNat_eq_iff.mpr rfl] at hl; cases hl

theorem cmpLenVal_swap (v w : List Nat) : cmpLenVal w v = (cmpLenVal v w).swap := by
  unfold cmpLenVal
  rw [cmpNat_swap v.length w.length, cmpBytes_swap v w]
  rcases cmpNat v.length w.length with _ | _ | _ <;> rfl

theorem cmpLenVal_lt_trans {v w x : List Nat}
    (h1 : cmpLenVal v w = .lt) (h2 : cmpLenVal w x = .lt) : cmpLenVal v x = .lt := by
  unfold cmpLenVal at h1 h2 ⊢
  rcases hl1 : cmpNat v.length w.length with _ | _ | _ <;> rw [hl1] at h1
  · rcases hl2 : cmpNat w.length x.length with _ | _ | _ <;> rw [hl2] at h2
    · rw [cmpNat_lt_iff] at hl1 hl2
      rw [show cmpNat v.length x.length = .lt from cmpNat_lt_iff.mpr (by omega)]
    · rw [cmpNat_eq_iff] at hl2
      rw [show cmpNat v.length x.length = .lt from by rw [← hl2]; exact hl1]
    · cases h2
  · rw [cmpNat_eq_iff] at hl1
    rcases hl2 : cmpNat w.length x.length with _ | _ | _ <;> rw [hl2] at h2
    · rw [show cmpNat v.length x.length = .lt from by rw [hl1]; exact hl2]
    · rw [cmpNat_eq_iff] at hl2
      rw [show cmpNat v.length x.length = .eq from cmpNat_eq_iff.mpr (hl1.trans hl2)]
      exact cmpBytes_lt_trans h1 h2
    · cases h2
  · cases h1

theorem Component.compare_eq_iff {a b : Component} :
    Component.compare a b = .eq ↔ a = b := by
  unfold Component.compare
  rcases ht : cmpNat a.typ b.typ with _ | _ | _
  · constructor
    · intro hc; cases hc
    · rintro rfl; rw [cmpNat_eq_iff.mpr rfl] at ht; cases ht
  · rw [cmpNat_eq_iff] at ht
    rw [cmpLenVal_eq_iff]
    constructor
    · intro hv; cases a; cases b; simp_all
    · rintro rfl; rfl
  · constructor
    · intro hc; cases hc
    · rintro rfl; rw [cmpNat_eq_iff.mpr rfl] at ht; cases ht

theorem Component.compare_swap (a b : Component) :
    Component.compare b a = (Component.compare a b).swap := by
  unfold Component.compare
  rw [cmpNat_swap a.typ b.typ, cmpLenVal_swap a.value b.value]
  rcases cmpNat a.typ b.typ with _ | _ | _ <;> rfl

theorem Component.compare_lt_trans {a b c : Component}
    (h1 : Component.compare a b = .lt) (h2 : Component.compare b c = .lt) :
    Component.compare a c = .lt := by
  unfold Component.compare at h1 h2 ⊢
  rcases ht1 : cmpNat a.typ b.typ with _ | _ | _ <;> rw [ht1] at h1
  · rcases ht2 : cmpNat b.typ c.typ with _ | _ | _ <;> rw [ht2] at h2
    · rw [cmpNat_lt_iff] at ht1 ht2
      rw [show cmpNat a.typ c.typ = .lt from cmpNat_lt_iff.mpr (by omega)]
    · rw [cmpNat_eq_iff] at ht2
      rw [show cmpNat a.typ c.typ = .lt from by rw [← ht2]; exact ht1]
    · cases h2
  · rw [cmpNat_eq_iff] at ht1
    rcases ht2 : cmpNat b.typ c.typ with _ | _ | _ <;> rw [ht2] at h2
    · rw [show cmpNat a.typ c.typ = .lt from by rw [ht1]; exact ht2]
    · rw [cmpNat_eq_iff] at ht2
      rw [show cmpNat a.typ c.typ = .eq from cmpNat_eq_iff.mpr (ht1.trans ht2)]
      exact cmpLenVal_lt_trans h1 h2
    · cases h2
  · cases h1

theorem Name.compare_name_eq_iff : ∀ {a b : Name}, Name.compare a b = .eq ↔ a = b := by
  intro a
  induction a with
  | nil => intro b; cases b <;> simp [Name.compare]
  | cons x xs ih =>
    intro b
    cases b with
    | nil => simp [Name.compare]
    | cons y ys =>
      simp only [Name.compare]
      rcases h : Component.compare x y with _ | _ | _
      · simp only [List.cons.injEq]
        constructor
        · intro hc; cases hc
        · rintro ⟨rfl, rfl⟩
          rw [Component.compare_eq_iff.mpr rfl] at h; cases h
      · rw [Component.compare_eq_iff] at h
        subst h
        simp only [List.cons.injEq, true_and]
        exact ih
      · simp only [List.cons.injEq]
        constructor
        · intro hc; cases hc
        · rintro ⟨rfl, rfl⟩
          rw [Component.compare_eq_iff.mpr rfl] at h; cases h

theorem Name.compare_name_swap : ∀ (a b : Name), Name.compare b a = (Name.compare a b).swap := by
  intro a
  induction a with
  | nil => intro b; cases b <;> rfl
  | cons x xs ih =>
    intro b
    cases b with
    | nil => rfl
    | cons y ys =>
      simp only [Name.compare, Component.compare_swap x y]
      rcases Component.compare x y with _ | _ | _
      · rfl
      · exact ih ys
      · rfl

theorem Name.compare_name_lt_trans : ∀ {a b c : Name},
    Name.compare a b = .lt → Name.compare b c = .lt → Name.compare a c = .lt := by
  intro a
  induction a with
  | nil =>
    intro b c h1 h2
    cases b with
    | nil => cases h1
    | cons y ys =>
      cases c with
      | nil => cases h2
      | cons z zs => rfl
  | cons x xs ih =>
    intro b c h1 h2
    cases b with
    | nil => cases h1
    | cons y ys =>
      cases c with
      | nil => cases h2
      | cons z zs =>
        simp only [Name.compare] at h1 h2 ⊢
        rcases hxy : Component.compare x y with _ | _ | _ <;> rw [hxy] at h1
        · rcases hyz : Component.compare y z with _ | _ | _ <;> rw [hyz] at h2
          · rw [show Component.compare x z = .lt from Component.compare_lt_trans hxy hyz]
          · rw [Component.compare_eq_iff] at hyz
            subst hyz
            rw [hxy]
          · cases h2
        · rw [Component.compare_eq_iff] at hxy
          subst hxy
          rcases hyz : Component.compare x z with _ | _ | _
          · rfl
          · rw [hyz] at h2
            exact ih h1 h2
          · rw [hyz] at h2
            cases h2
        · cases h1

/-- Strict prefixes order first under the canonical Name comparator:
if `a` is a proper leading sub-sequence of `b` then `a` compares `.lt`. -/
theorem Name.compare_lt_of_strict_pre : ∀ (a t : Name), t ≠ [] →
    Name.compare a (a ++ t) = .lt := by
  intro a
  induction a with
  | nil =>
    intro t ht
    cases t with
    | nil => exact absurd rfl ht
    | cons z zs => rfl
  | cons x xs ih =>
    intro t ht
    simp only [List.cons_append, Name.compare]
    rw [Component.compare_eq_iff.mpr rfl]
    exact ih t ht

-- ## Numeric convention builders (spec 4.4)

/-- Fixed-width big-endian encoding: the low `k` bytes of `n`, most
significant first.  Used for the numeric-convention values and for the
2/4/8-byte payloads of the VarNum forms. -/
def beFixed : Nat → Nat → List Nat
  | 0, _ => []
  | k + 1, n => beFixed k (n / 256) ++ [n % 256]

/-- Byte width chosen by the numeric-convention builders: the smallest of
1, 2, 4 or 8 bytes that holds the integer.  The spec (4.4) prescribes the
shortest big-endian representation instead, but the repository's own test
(tests/encoding/name_test.py test_number) pins
`from_timestamp(15686790223318112)` to the eight-byte value
`00 37 bb 0d 76 ed 4c 60`, whose leading byte is zero, so the builders
are modelled with these width classes. -/
def numWidth (n : Nat) : Nat :=
  if n ≤ 255 then 1 else if n ≤ 65535 then 2 else if n ≤ 4294967295 then 4 else 8

/-- Generic numeric-convention builder: the reserved type together with
the big-endian bytes of `n` in its width class. -/
def Component.from_number (n typ : Nat) : Component :=
  ⟨typ, beFixed (numWidth n) n⟩

/-- Modelled from the spec: segment-number component builder (reserved type 33). -/
def Component.from_segment (n : Nat) : Component := Component.from_number n 33

/-- Modelled from the spec: byte-offset component builder (reserved type 34). -/
def Component.from_byte_offset (n : Nat) : Component := Component.from_number n 34

/-- Modelled from the spec: version component builder (reserved type 35). -/
def Component.from_version (n : Nat) : Component := Component.from_number n 35

/-- Modelled from the spec: timestamp component builder (reserved type 36). -/
def Component.from_timestamp (n : Nat) : Component := Component.from_number n 36

/-- Modelled from the spec: sequence-number component builder (reserved type 37). -/
def Component.from_sequence_num (n : Nat) : Component := Component.from_number n 37

/-- Big-endian value of a byte sequence (the reading direction of the
numeric conventions). -/
def fromBE (v : List Nat) : Nat := v.foldl (fun a d => 256 * a + d) 0

-- ## Numeric lemmas

theorem fromBE_append_one (v : List Nat) (d : Nat) :
    fromBE (v ++ [d]) = 256 * fromBE v + d := by
  unfold fromBE
  rw [List.foldl_append]
  rfl

theorem beFixed_length : ∀ (k n : Nat), (beFixed k n).length = k := by
  intro k
  induction k with
  | zero => intro n; rfl
  | succ m ih =>
    intro n
    simp only [beFixed, List.length_append, List.length_singleton, ih]

theorem fromBE_beFixed : ∀ (k n : Nat), n < 256 ^ k → fromBE (beFixed k n) = n := by
  intro k
  induction k with
  | zero =>
    intro n hn
    simp only [pow_zero, Nat.lt_one_iff] at hn
    subst hn
    rfl
  | succ m ih =>
    intro n hn
    have hdiv : n / 256 < 256 ^ m := by
      rw [Nat.div_lt_iff_lt_mul (by omega : 0 < 256)]
      calc n < 256 ^ (m + 1) := hn
      _ = 256 ^ m * 256 := by rw [pow_succ]
    simp only [beFixed]
    rw [fromBE_append_one, ih (n / 256) hdiv]
    omega

theorem beFixed_lt : ∀ (k n : Nat), ∀ d ∈ beFixed k n, d < 256 := by
  intro k
  induction k with
  | zero => intro n d hd; cases hd
  | succ m ih =>
    intro n d hd
    simp only [beFixed] at hd
    rcases List.mem_append.mp hd with h | h
    · exact ih (n / 256) d h
    · rcases List.mem_singleton.mp h with rfl
      omega

-- ## Binary codec (spec 3, 4.1, 4.2)

/-- Modelled from the spec: the NDN variable-length unsigned-integer
encoding (spec 3 and 4.1); fails for integers above `2^64 - 1`. -/
def varnumEncode (n : Nat) : Except Unit (List Nat) :=
  if n ≤ 252 then .ok [n]
  else if n ≤ 65535 then .ok (253 :: beFixed 2 n)
  else if n ≤ 4294967295 then .ok (254 :: beFixed 4 n)
  else if n ≤ 18446744073709551615 then .ok (255 :: beFixed 8 n)
  else .error ()

/-- Modelled from the spec: the binary form of a Component,
`VarNum(type) ++ VarNum(length) ++ value` (spec 3 and 4.2). -/
def Component.encode (c : Component) : Except Unit (List Nat) :=
  match varnumEncode c.typ, varnumEncode c.value.length with
  | .ok t, .ok l => .ok (t ++ l ++ c.value)
  | _, _ => .error ()

/-- Modelled from the spec: `Component.from_bytes` wraps raw value bytes
under a given type, GENERIC (8) by default. -/
def Component.from_bytes (v : List Nat) (typ : Nat := 8) : Component := ⟨typ, v⟩

-- ## URI text codec (spec 4.3, 4.5)
-- Text strings are embedded as lists of character codes; every character
-- appearing in a Component URI is ASCII.

/-- Modelled from the spec: the pass-through character set of the URI
codec, `[A-Za-z0-9.\x2d_~]` (spec 4.3). -/
def CHARSET (c : Nat) : Bool :=
  (48 ≤ c && c ≤ 57) || (65 ≤ c && c ≤ 90) || (97 ≤ c && c ≤ 122) ||
    c == 45 || c == 46 || c == 95 || c == 126

/-- Lowercase hexadecimal digit character for a value below 16 (spec 4.3). -/
def hexChar (n : Nat) : Nat := if n < 10 then 48 + n else 87 + n

/-- Modelled from the spec: percent-escaping of one value byte — pass-through
for CHARSET bytes, percent plus two lowercase hex digits otherwise. -/
def escapeByte (b : Nat) : List Nat :=
  if CHARSET b then [b] else [37, hexChar (b / 16), hexChar (b % 16)]

/-- Modelled from the spec: percent-escaping of a whole value (spec 4.3). -/
def escBytes : List Nat → List Nat
  | [] => []
  | b :: rest => escapeByte b ++ escBytes rest

/-- Modelled from the spec: lowercase hex rendering of a byte sequence,
used for the sha256digest / params-sha256 text forms. -/
def hexStr : List Nat → List Nat
  | [] => []
  | b :: rest => hexChar (b / 16) :: hexChar (b % 16) :: hexStr rest

/-- Base-10 digits of a positive integer, most significant first
(empty for zero). -/
def decDigits : Nat → List Nat
  | 0 => []
  | n + 1 => decDigits ((n + 1) / 10) ++ [(n + 1) % 10]
decreasing_by exact Nat.div_lt_self (Nat.succ_pos _) (by omega)

/-- Decimal character rendering of an unsigned integer, as used for
explicit `TYPE=` prefixes (spec 4.3). -/
def decRepr (n : Nat) : List Nat :=
  if n = 0 then [48] else (decDigits n).map (fun d => 48 + d)

/-- Character codes of the reserved textual prefix for IMPLICIT_SHA256
components (the thirteen characters of a "sha256digest=" tag, spec 4.3). -/
def sha256Tag : List Nat := [115, 104, 97, 50, 53, 54, 100, 105, 103, 101, 115, 116, 61]

/-- Character codes of the reserved textual prefix for PARAMETERS_SHA256
components (the fourteen characters of a "params-sha256=" tag, spec 4.3). -/
def paramsTag : List Nat := [112, 97, 114, 97, 109, 115, 45, 115, 104, 97, 50, 53, 54, 61]

/-- Modelled from the spec: `Component.to_str` of spec 4.3 — digest types
render as their reserved tag plus lowercase hex; other types render as the
percent-escaped value, preceded by the decimal type and a 0x3d separator
when the type is not GENERIC (8). -/
def Component.to_str (c : Component) : List Nat :=
  if c.typ = 1 then sha256Tag ++ hexStr c.value
  else if c.typ = 2 then paramsTag ++ hexStr c.value
  else if c.typ = 8 then escBytes c.value
  else decRepr c.typ ++ 61 :: escBytes c.value

/-- Value of a hexadecimal digit character, case-insensitive (spec 4.3). -/
def hexVal (c : Nat) : Option Nat :=
  if 48 ≤ c ∧ c ≤ 57 then some (c - 48)
  else if 97 ≤ c ∧ c ≤ 102 then some (c - 87)
  else if 65 ≤ c ∧ c ≤ 70 then some (c - 55)
  else none

/-- Modelled from the spec: percent-decoding of a URI segment; a 0x25
percent character not followed by exactly two hex digits is a decode
error (spec 4.3). -/
def percentDecode : List Nat → Except Unit (List Nat)
  | [] => .ok []
  | 37 :: c1 :: c2 :: rest =>
    match hexVal c1, hexVal c2 with
    | some h1, some h2 => (percentDecode rest).map (fun v => (16 * h1 + h2) :: v)
    | _, _ => .error ()
  | 37 :: _ => .error ()
  | c :: rest => (percentDecode rest).map (fun v => c :: v)

/-- Modelled from the spec: case-insensitive hex decoding of the digest
part of a sha256digest= / params-sha256= segment (spec 4.3). -/
def hexPairs : List Nat → Except Unit (List Nat)
  | [] => .ok []
  | c1 :: c2 :: rest =>
    match hexVal c1, hexVal c2 with
    | some h1, some h2 => (hexPairs rest).map (fun v => (16 * h1 + h2) :: v)
    | _, _ => .error ()
  | _ => .error ()

/-- Strip a leading tag from a segment, returning the remainder when the
tag matches. -/
def listStrip : List Nat → List Nat → Option (List Nat)
  | [], s => some s
  | _ :: _, [] => none
  | t :: ts, c :: cs => if c = t then listStrip ts cs else none

/-- Split a segment at its first 0x3d separator character, if any. -/
def splitAtEq : List Nat → Option (List Nat × List Nat)
  | [] => none
  | 61 :: rest => some ([], rest)
  | c :: rest => (splitAtEq rest).map (fun p => (c :: p.1, p.2))

/-- Decimal digit character test. -/
def isDigitCode (c : Nat) : Bool := 48 ≤ c && c ≤ 57

/-- Numeric value of a non-empty all-digit segment. -/
def decValue (s : List Nat) : Nat := s.foldl (fun a c => 10 * a + (c - 48)) 0

/-- Modelled from the spec: `Component.from_str` of spec 4.3.  Rejects an
unescaped 0x2f separator and the dot-only wildcard segment; recognizes the
sha256digest= and params-sha256= tags first with case-insensitive hex;
otherwise splits at the first unescaped 0x3d into a decimal TYPE (which
must be a non-empty unsigned digit string, with no second 0x3d in the
remainder) and a percent-decoded value; with no 0x3d the whole segment
percent-decodes into a GENERIC (type 8) value. -/
def Component.from_str (s : List Nat) : Except Unit Component :=
  if s.contains 47 then .error ()
  else if s = [46, 46, 46] then .error ()
  else match listStrip sha256Tag s with
  | some rest => (hexPairs rest).map (fun v => ⟨1, v⟩)
  | none => match listStrip paramsTag s with
    | some rest => (hexPairs rest).map (fun v => ⟨2, v⟩)
    | none => match splitAtEq s with
      | none => (percentDecode s).map (fun v => ⟨8, v⟩)
      | some (pre, post) =>
        if pre = [] then .error ()
        else if post.contains 61 then .error ()
        else if pre.all isDigitCode then (percentDecode post).map (fun v => ⟨decValue pre, v⟩)
        else .error ()

/-- Split a URI string at every 0x2f separator (the segments between
slashes, in order). -/
def splitSlash : List Nat → List (List Nat)
  | [] => [[]]
  | 47 :: rest => [] :: splitSlash rest
  | c :: rest =>
    match splitSlash rest with
    | s :: ss => (c :: s) :: ss
    | [] => [[c]]

/-- Parse every segment of a name with the Component text codec. -/
def mapFromStr : List (List Nat) → Except Unit (List Component)
  | [] => .ok []
  | s :: rest =>
    match Component.from_str s, mapFromStr rest with
    | .ok c, .ok cs => .ok (c :: cs)
    | _, _ => .error ()

/-- Modelled from the spec: `Name.from_str` of spec 4.5 — split on the
0x2f separator, drop at most one leading and at most one trailing empty
segment, and parse every remaining segment (interior empty segments
included) with the Component text codec.  Following the behaviour pinned
by tests/encoding/name_test.py (test_encode_parse), whitespace is not
stripped: only the empty input and a single separator yield the root. -/
def Name.from_str (s : List Nat) : Except Unit Name :=
  let segs0 := splitSlash s
  let segs1 := if segs0.head? = some [] then segs0.tail else segs0
  let segs2 := if segs1.getLast? = some [] then segs1.dropLast else segs1
  mapFromStr segs2

/-- Join rendered segments with the 0x2f separator. -/
def joinSlash : List (List Nat) → List Nat
  | [] => []
  | [x] => x
  | x :: xs => x ++ 47 :: joinSlash xs

/-- Modelled from the spec: `Name.to_str` of spec 4.5 — a leading 0x2f
separator followed by the separator-joined rendered components; the root
renders as the single separator character. -/
def Name.to_str (n : Name) : List Nat := 47 :: joinSlash (n.map Component.to_str)

-- ## NDN-DPDK prefix-registration client (src/ndn/transport/ndn_dpdk.py)

/-- Modelled from the spec: `Name.to_canonical_uri`, the URI producer the
DPDK registerer sends to the forwarder-management API.  Its definition is
not part of the snapshot; spec section 6 states the registration protocol
"uses Name.to_string to produce a canonical URI", so it is modelled as
`Name.to_str`. -/
def Name.to_canonical_uri (n : Name) : List Nat := Name.to_str n

/-- Association-list lookup, embedding python dict membership/indexing of
`fib_entries` (keys are URI strings as character-code lists). -/
def lookupEntry : List (List Nat × List Nat) → List Nat → Option (List Nat)
  | [], _ => none
  | (k, v) :: rest, key => if k = key then some v else lookupEntry rest key

/-- Association-list insert-or-overwrite, embedding python dict assignment
`fib_entries[name_uri] = fib_id` (insertion position kept on overwrite). -/
def insertEntry : List (List Nat × List Nat) → List Nat → List Nat → List (List Nat × List Nat)
  | [], key, v => [(key, v)]
  | (k, w) :: rest, key, v =>
    if k = key then (key, v) :: rest else (k, w) :: insertEntry rest key v

/-- State of a `DpdkRegisterer` (ndn_dpdk.py lines 128-161): the face's
running flag and the `fib_entries` dict from registered-prefix URI to the
forwarder's assigned FIB-entry id. -/
structure DpdkRegisterer where
  running : Bool
  fib_entries : List (List Nat × List Nat)
deriving DecidableEq, Repr

/-- Embedding of `DpdkRegisterer.register` (ndn_dpdk.py lines 137-147).
The awaited `GqlClient.insert_fib` call is abstracted by `resp`: `.ok id`
when the forwarder response carries `data.insertFibEntry.id`, `.error ()`
for the `KeyError` raised while indexing a response that lacks those
fields (graphql.py lines 32-40).  The result carries the returned bool,
the URI sent to the forwarder, and the new state; a face that is not
running raises (`.error ()`). -/
def DpdkRegisterer.register (r : DpdkRegisterer) (name : Name)
    (resp : Except Unit (List Nat)) : Except Unit (Bool × List Nat × DpdkRegisterer) :=
  if r.running then
    match resp with
    | .ok fib_id =>
      .ok (true, Name.to_canonical_uri name,
        { r with fib_entries := insertEntry r.fib_entries (Name.to_canonical_uri name) fib_id })
    | .error _ => .ok (false, Name.to_canonical_uri name, r)
  else .error ()

/-- Embedding of `DpdkRegisterer.unregister` (ndn_dpdk.py lines 149-161).
The awaited `GqlClient.delete` call is abstracted by `resp` (`.error ()`
for a `KeyError` while indexing the response).  The result carries the
returned bool, the FIB-entry id passed to `client.delete` (`none` when no
delete was sent), and the new state.  The method never mutates
`fib_entries`. -/
def DpdkRegisterer.unregister (r : DpdkRegisterer) (name : Name)
    (resp : Except Unit Bool) : Except Unit (Bool × Option (List Nat) × DpdkRegisterer) :=
  if r.running then
    match lookupEntry r.fib_entries (Name.to_canonical_uri name) with
    | none => .ok (false, none, r)
    | some fib_id =>
      match resp with
      | .ok _ => .ok (true, some fib_id, r)
      | .error _ => .ok (false, some fib_id, r)
  else .error ()

/-- Well-formedness of a Component for text-codec purposes: its value is a
byte sequence. -/
def Component.wf (c : Component) : Prop := ∀ b ∈ c.value, b < 256

/-- Well-formedness of a Name: every component is well-formed. -/
def Name.wf (n : Name) : Prop := ∀ c ∈ n, Component.wf c

instance (c : Component) : Decidable (Component.wf c) := by
  unfold Component.wf; infer_instance

instance (n : Name) : Decidable (Name.wf n) := by
  unfold Name.wf; infer_instance

-- ## Injectivity of the URI rendering

theorem hexChar_inj {a b : Nat} (ha : a < 16) (hb : b < 16) (h : hexChar a = hexChar b) :
    a = b := by
  unfold hexChar at h
  split at h <;> split at h <;> omega

theorem hexChar_ne (n : Nat) : hexChar n ≠ 61 ∧ hexChar n ≠ 47 := by
  unfold hexChar
  split <;> omega

theorem escapeByte_ne_nil (b : Nat) : escapeByte b ≠ [] := by
  unfold escapeByte
  split <;> simp

theorem escapeByte_mem {b c : Nat} (hc : c ∈ escapeByte b) : c ≠ 61 ∧ c ≠ 47 := by
  unfold escapeByte at hc
  split at hc
  case isTrue h =>
    rcases List.mem_singleton.mp hc with rfl
    refine ⟨fun hq => ?_, fun hq => ?_⟩ <;> subst hq <;> exact absurd h (by decide)
  case isFalse h =>
    simp only [List.mem_cons, List.mem_singleton, List.not_mem_nil, or_false] at hc
    rcases hc with rfl | rfl | rfl
    · omega
    · exact hexChar_ne _
    · exact hexChar_ne _

theorem escapeByte_head_inj {b1 b2 : Nat} {t1 t2 : List Nat}
    (h1 : b1 < 256) (h2 : b2 < 256)
    (h : escapeByte b1 ++ t1 = escapeByte b2 ++ t2) : b1 = b2 ∧ t1 = t2 := by
  unfold escapeByte at h
  by_cases c1 : CHARSET b1 <;> by_cases c2 : CHARSET b2 <;>
    simp only [c1, c2, if_true, if_false, List.cons_append, List.nil_append] at h
  · injection h with hb ht
    exact ⟨hb, ht⟩
  · injection h with hb _
    subst hb
    exact absurd c1 (by simp_all [CHARSET])
  · injection h with hb _
    exact absurd (hb ▸ c2) (by decide)
  · injection h with _ h
    injection h with hh1 h
    injection h with hh2 ht
    have e1 : b1 / 16 = b2 / 16 := hexChar_inj (by omega) (by omega) hh1
    have e2 : b1 % 16 = b2 % 16 := hexChar_inj (by omega) (by omega) hh2
    exact ⟨by omega, ht⟩

theorem escBytes_eq_nil {v : List Nat} : escBytes v = [] ↔ v = [] := by
  cases v with
  | nil => simp [escBytes]
  | cons b rest =>
    simp only [escBytes]
    constructor
    · intro h
      exact absurd (List.append_eq_nil.mp h).1 (escapeByte_ne_nil b)
    · intro h; cases h

theorem escBytes_mem : ∀ {v : List Nat} {ch : Nat}, ch ∈ escBytes v → ch ≠ 61 ∧ ch ≠ 47 := by
  intro v
  induction v with
  | nil => intro ch hch; cases hch
  | cons b rest ih =>
    intro ch hch
    simp only [escBytes] at hch
    rcases List.mem_append.mp hch with h | h
    · exact escapeByte_mem h
    · exact ih h

theorem escBytes_inj : ∀ {v1 v2 : List Nat}, (∀ b ∈ v1, b < 256) → (∀ b ∈ v2, b < 256) →
    escBytes v1 = escBytes v2 → v1 = v2 := by
  intro v1
  induction v1 with
  | nil =>
    intro v2 _ _ h
    cases v2 with
    | nil => rfl
    | cons b rest =>
      simp only [escBytes] at h
      exact absurd (List.append_eq_nil.mp h.symm).1 (escapeByte_ne_nil b)
  | cons a arest ih =>
    intro v2 hw1 hw2 h
    cases v2 with
    | nil =>
      simp only [escBytes] at h
      exact absurd (List.append_eq_nil.mp h).1 (escapeByte_ne_nil a)
    | cons b brest =>
      simp only [escBytes] at h
      rcases escapeByte_head_inj (hw1 a (List.mem_cons_self a arest))
        (hw2 b (List.mem_cons_self b brest)) h with ⟨rfl, ht⟩
      rw [ih (fun x hx => hw1 x (List.mem_cons_of_mem _ hx))
        (fun x hx => hw2 x (List.mem_cons_of_mem _ hx)) ht]

theorem hexStr_mem : ∀ {v : List Nat} {ch : Nat}, ch ∈ hexStr v → ch ≠ 61 ∧ ch ≠ 47 := by
  intro v
  induction v with
  | nil => intro ch hch; cases hch
  | cons b rest ih =>
    intro ch hch
    simp only [hexStr, List.mem_cons] at hch
    rcases hch with rfl | rfl | hch
    · exact hexChar_ne _
    · exact hexChar_ne _
    · exact ih hch

theorem hexStr_inj : ∀ {v1 v2 : List Nat}, (∀ b ∈ v1, b < 256) → (∀ b ∈ v2, b < 256) →
    hexStr v1 = hexStr v2 → v1 = v2 := by
  intro v1
  induction v1 with
  | nil =>
    intro v2 _ _ h
    cases v2 with
    | nil => rfl
    | cons b rest => cases h
  | cons a arest ih =>
    intro v2 hw1 hw2 h
    cases v2 with
    | nil => cases h
    | cons b brest =>
      simp only [hexStr] at h
      injection h with hh1 h
      injection h with hh2 ht
      have ha : a < 256 := hw1 a (List.mem_cons_self a arest)
      have hb : b < 256 := hw2 b (List.mem_cons_self b brest)
      have e1 : a / 16 = b / 16 := hexChar_inj (by omega) (by omega) hh1
      have e2 : a % 16 = b % 16 := hexChar_inj (by omega) (by omega) hh2
      have : a = b := by omega
      subst this
      rw [ih (fun x hx => hw1 x (List.mem_cons_of_mem _ hx))
        (fun x hx => hw2 x (List.mem_cons_of_mem _ hx)) ht]

/-- Base-10 value of a digit sequence, most significant first. -/
def fold10 (l : List Nat) : Nat := l.foldl (fun a d => 10 * a + d) 0

theorem fold10_append_one (v : List Nat) (d : Nat) :
    fold10 (v ++ [d]) = 10 * fold10 v + d := by
  unfold fold10
  rw [List.foldl_append]
  rfl

theorem fold10_decDigits : ∀ n, fold10 (decDigits n) = n := by
  intro n
  induction n using Nat.strong_induction_on with
  | _ n ih =>
    match n with
    | 0 => simp [decDigits, fold10]
    | m + 1 =>
      rw [decDigits, fold10_append_one,
        ih ((m + 1) / 10) (Nat.div_lt_self (Nat.succ_pos _) (by omega))]
      omega

theorem decDigits_lt10 : ∀ n, ∀ d ∈ decDigits n, d < 10 := by
  intro n
  induction n using Nat.strong_induction_on with
  | _ n ih =>
    match n with
    | 0 => intro d hd; simp [decDigits] at hd
    | m + 1 =>
      intro d hd
      rw [decDigits] at hd
      rcases List.mem_append.mp hd with h | h
      · exact ih ((m + 1) / 10) (Nat.div_lt_self (Nat.succ_pos _) (by omega)) d h
      · rcases List.mem_singleton.mp h with rfl
        omega

theorem decDigits_inj {m n : Nat} (h : decDigits m = decDigits n) : m = n := by
  rw [← fold10_decDigits m, ← fold10_decDigits n, h]

theorem decRepr_pos_eq {n : Nat} (hn : n ≠ 0) :
    decRepr n = (decDigits n).map (fun d => 48 + d) := by
  unfold decRepr
  rw [if_neg hn]

theorem decRepr_eq_single_zero {n : Nat} (h : decRepr n = [48]) : n = 0 := by
  by_contra hn
  rw [decRepr_pos_eq hn] at h
  cases hdig : decDigits n with
  | nil => rw [hdig] at h; cases h
  | cons d rest =>
    rw [hdig] at h
    simp only [List.map_cons] at h
    injection h with h1 h2
    have hrest : rest = [] := List.map_eq_nil_iff.mp h2
    have hf := fold10_decDigits n
    rw [hdig, hrest, show d = 0 from by omega] at hf
    simp [fold10] at hf
    exact hn hf.symm

theorem decRepr_inj {m n : Nat} (h : decRepr m = decRepr n) : m = n := by
  by_cases hm : m = 0 <;> by_cases hn : n = 0
  · omega
  · subst hm
    rw [show decRepr 0 = [48] from rfl] at h
    exact absurd (decRepr_eq_single_zero h.symm) hn
  · subst hn
    rw [show decRepr 0 = [48] from rfl] at h
    exact absurd (decRepr_eq_single_zero h) hm
  · rw [decRepr_pos_eq hm, decRepr_pos_eq hn] at h
    have hinj : Function.Injective (fun d : Nat => 48 + d) := fun x y hxy => Nat.add_left_cancel hxy
    exact decDigits_inj (List.map_injective_iff.mpr hinj h)

theorem decRepr_mem {n : Nat} : ∀ c ∈ decRepr n, 48 ≤ c ∧ c ≤ 57 := by
  intro c hc
  unfold decRepr at hc
  split at hc
  · rcases List.mem_singleton.mp hc with rfl
    omega
  · rcases List.mem_map.mp hc with ⟨d, hd, rfl⟩
    have := decDigits_lt10 n d hd
    omega

theorem decRepr_ne_nil (n : Nat) : decRepr n ≠ [] := by
  unfold decRepr
  split
  · simp
  case isFalse h =>
    rcases Nat.exists_eq_succ_of_ne_zero h with ⟨m, rfl⟩
    rw [decDigits]
    simp

theorem decRepr_head_digit (n : Nat) :
    ∃ d rest, decRepr n = d :: rest ∧ 48 ≤ d ∧ d ≤ 57 := by
  rcases hd : decRepr n with _ | ⟨d, rest⟩
  · exact absurd hd (decRepr_ne_nil n)
  · have := decRepr_mem (n := n) d (by rw [hd]; exact List.mem_cons_self _ _)
    exact ⟨d, rest, rfl, this.1, this.2⟩

theorem append_sep_inj {sep : Nat} : ∀ {x1 x2 y1 y2 : List Nat}, sep ∉ x1 → sep ∉ x2 →
    x1 ++ sep :: y1 = x2 ++ sep :: y2 → x1 = x2 ∧ y1 = y2 := by
  intro x1
  induction x1 with
  | nil =>
    intro x2 y1 y2 _ h2 h
    cases x2 with
    | nil =>
      simp only [List.nil_append] at h
      injection h with _ ht
      exact ⟨rfl, ht⟩
    | cons c cs =>
      simp only [List.nil_append, List.cons_append] at h
      injection h with hc _
      exact absurd (hc ▸ List.mem_cons_self c cs) h2
  | cons a as ih =>
    intro x2 y1 y2 h1 h2 h
    cases x2 with
    | nil =>
      simp only [List.nil_append, List.cons_append] at h
      injection h with hc _
      exact absurd (by rw [← hc]; exact List.mem_cons_self a as) h1
    | cons c cs =>
      simp only [List.cons_append] at h
      injection h with hc ht
      subst hc
      have h1' : sep ∉ as := fun hm => h1 (List.mem_cons_of_mem _ hm)
      have h2' : sep ∉ cs := fun hm => h2 (List.mem_cons_of_mem _ hm)
      rcases ih h1' h2' ht with ⟨rfl, rfl⟩
      exact ⟨rfl, rfl⟩

/-- Two Components are equal when their typ and value fields agree. -/
theorem Component.ext' {a b : Component} (ht : a.typ = b.typ) (hv : a.value = b.value) :
    a = b := by
  cases a; cases b; simp_all

theorem sep61_not_mem_decRepr (n : Nat) : 61 ∉ decRepr n := by
  intro h
  have := decRepr_mem (n := n) 61 h
  omega

theorem Component.to_str_inj {a b : Component} (ha : Component.wf a) (hb : Component.wf b)
    (h : Component.to_str a = Component.to_str b) : a = b := by
  unfold Component.to_str at h
  split_ifs at h with ha1 hb1 hb2 hb8 ha2 hb1a hb2a hb8a ha8 hb1b hb2b hb8b hb1c hb2c hb8c
  -- (1,1)
  · refine Component.ext' (ha1.trans hb1.symm) (hexStr_inj ha hb ?_)
    exact List.append_cancel_left h
  -- (1,2)
  · simp [sha256Tag, paramsTag] at h
  -- (1,8)
  · have hmem : (61 : Nat) ∈ sha256Tag ++ hexStr a.value :=
      List.mem_append_left _ (by decide)
    rw [h] at hmem
    exact absurd rfl (escBytes_mem hmem).1
  -- (1,other)
  · rcases decRepr_head_digit b.typ with ⟨d, rest, hd, hd1, hd2⟩
    rw [hd] at h
    simp only [sha256Tag, List.cons_append] at h
    injection h with h1 _
    omega
  -- (2,1)
  · simp [sha256Tag, paramsTag] at h
  -- (2,2)
  · refine Component.ext' (ha2.trans hb2a.symm) (hexStr_inj ha hb ?_)
    exact List.append_cancel_left h
  -- (2,8)
  · have hmem : (61 : Nat) ∈ paramsTag ++ hexStr a.value :=
      List.mem_append_left _ (by decide)
    rw [h] at hmem
    exact absurd rfl (escBytes_mem hmem).1
  -- (2,other)
  · rcases decRepr_head_digit b.typ with ⟨d, rest, hd, hd1, hd2⟩
    rw [hd] at h
    simp only [paramsTag, List.cons_append] at h
    injection h with h1 _
    omega
  -- (8,1)
  · have hmem : (61 : Nat) ∈ sha256Tag ++ hexStr b.value :=
      List.mem_append_left _ (by decide)
    rw [← h] at hmem
    exact absurd rfl (escBytes_mem hmem).1
  -- (8,2)
  · have hmem : (61 : Nat) ∈ paramsTag ++ hexStr b.value :=
      List.mem_append_left _ (by decide)
    rw [← h] at hmem
    exact absurd rfl (escBytes_mem hmem).1
  -- (8,8)
  · exact Component.ext' (ha8.trans hb8b.symm) (escBytes_inj ha hb h)
  -- (8,other)
  · have hmem : (61 : Nat) ∈ decRepr b.typ ++ 61 :: escBytes b.value :=
      List.mem_append_right _ (List.mem_cons_self _ _)
    rw [← h] at hmem
    exact absurd rfl (escBytes_mem hmem).1
  -- (other,1)
  · rcases decRepr_head_digit a.typ with ⟨d, rest, hd, hd1, hd2⟩
    rw [hd] at h
    simp only [sha256Tag, List.cons_append] at h
    injection h with h1 _
    omega
  -- (other,2)
  · rcases decRepr_head_digit a.typ with ⟨d, rest, hd, hd1, hd2⟩
    rw [hd] at h
    simp only [paramsTag, List.cons_append] at h
    injection h with h1 _
    omega
  -- (other,8)
  · have hmem : (61 : Nat) ∈ decRepr a.typ ++ 61 :: escBytes a.value :=
      List.mem_append_right _ (List.mem_cons_self _ _)
    rw [h] at hmem
    exact absurd rfl (escBytes_mem hmem).1
  -- (other,other)
  · rcases append_sep_inj (sep61_not_mem_decRepr a.typ) (sep61_not_mem_decRepr b.typ) h with
      ⟨hdec, hesc⟩
    exact Component.ext' (decRepr_inj hdec) (escBytes_inj ha hb hesc)

theorem Component.to_str_eq_nil {c : Component} :
    Component.to_str c = [] ↔ c = ⟨8, []⟩ := by
  unfold Component.to_str
  split_ifs with h1 h2 h8
  · constructor
    · intro h
      exact absurd (List.append_eq_nil.mp h).1 (by decide)
    · rintro rfl
      cases h1
  · constructor
    · intro h
      exact absurd (List.append_eq_nil.mp h).1 (by decide)
    · rintro rfl
      cases h2
  · rw [escBytes_eq_nil]
    constructor
    · intro hv
      exact Component.ext' h8 hv
    · rintro rfl
      rfl
  · constructor
    · intro h
      rcases List.append_eq_nil.mp h with ⟨_, hc⟩
      cases hc
    · rintro rfl
      exact absurd rfl h8

theorem Component.to_str_ne_47 (c : Component) : ∀ ch ∈ Component.to_str c, ch ≠ 47 := by
  intro ch hch
  unfold Component.to_str at hch
  split_ifs at hch
  · rcases List.mem_append.mp hch with h | h
    · simp only [sha256Tag, List.mem_cons, List.not_mem_nil, or_false] at h
      omega
    · exact (hexStr_mem h).2
  · rcases List.mem_append.mp hch with h | h
    · simp only [paramsTag, List.mem_cons, List.not_mem_nil, or_false] at h
      omega
    · exact (hexStr_mem h).2
  · exact (escBytes_mem hch).2
  · rcases List.mem_append.mp hch with h | h
    · have := decRepr_mem _ h
      omega
    · rcases List.mem_cons.mp h with rfl | h
      · omega
      · exact (escBytes_mem h).2

theorem joinSlash_inj : ∀ {xs ys : List (List Nat)},
    (∀ x ∈ xs, (47 : Nat) ∉ x) → (∀ y ∈ ys, (47 : Nat) ∉ y) → joinSlash xs = joinSlash ys →
    xs = ys ∨ (xs = [] ∧ ys = [[]]) ∨ (ys = [] ∧ xs = [[]]) := by
  intro xs
  induction xs with
  | nil =>
    intro ys _ hy h
    cases ys with
    | nil => exact Or.inl rfl
    | cons y ys' =>
      cases ys' with
      | nil =>
        right; left
        exact ⟨rfl, by rw [show y = [] from h.symm]⟩
      | cons y2 ys'' =>
        exfalso
        simp only [joinSlash] at h
        have := congrArg List.length h
        simp only [List.length_nil, List.length_append, List.length_cons] at this
        omega
  | cons x xs' ih =>
    intro ys hx hy h
    cases ys with
    | nil =>
      cases xs' with
      | nil =>
        right; right
        exact ⟨rfl, by rw [show x = [] from h]⟩
      | cons x2 xs'' =>
        exfalso
        simp only [joinSlash] at h
        have := congrArg List.length h
        simp only [List.length_nil, List.length_append, List.length_cons] at this
        omega
    | cons y ys' =>
      cases xs' with
      | nil =>
        cases ys' with
        | nil =>
          left
          rw [show x = y from h]
        | cons y2 ys'' =>
          exfalso
          simp only [joinSlash] at h
          have h47 : (47 : Nat) ∈ x := by
            rw [h]
            exact List.mem_append_right _ (List.mem_cons_self _ _)
          exact hx x (List.mem_cons_self _ _) h47
      | cons x2 xs'' =>
        cases ys' with
        | nil =>
          exfalso
          simp only [joinSlash] at h
          have h47 : (47 : Nat) ∈ y := by
            rw [← h]
            exact List.mem_append_right _ (List.mem_cons_self _ _)
          exact hy y (List.mem_cons_self _ _) h47
        | cons y2 ys'' =>
          simp only [joinSlash] at h
          rcases append_sep_inj (hx x (List.mem_cons_self _ _)) (hy y (List.mem_cons_self _ _)) h
            with ⟨rfl, ht⟩
          have hx' : ∀ z ∈ x2 :: xs'', (47 : Nat) ∉ z :=
            fun z hz => hx z (List.mem_cons_of_mem _ hz)
          have hy' : ∀ z ∈ y2 :: ys'', (47 : Nat) ∉ z :=
            fun z hz => hy z (List.mem_cons_of_mem _ hz)
          rcases ih hx' hy' ht with heq | ⟨hc, _⟩ | ⟨hc, _⟩
          · left; rw [heq]
          · cases hc
          · cases hc

theorem map_to_str_inj : ∀ {a b : Name}, Name.wf a → Name.wf b →
    a.map Component.to_str = b.map Component.to_str → a = b := by
  intro a
  induction a with
  | nil =>
    intro b _ _ h
    cases b with
    | nil => rfl
    | cons c cs => cases h
  | cons c cs ih =>
    intro b ha hb h
    cases b with
    | nil => cases h
    | cons d ds =>
      simp only [List.map_cons] at h
      injection h with hh ht
      rw [Component.to_str_inj (ha c (List.mem_cons_self _ _)) (hb d (List.mem_cons_self _ _)) hh,
        ih (fun z hz => ha z (List.mem_cons_of_mem _ hz))
          (fun z hz => hb z (List.mem_cons_of_mem _ hz)) ht]

theorem Name.to_str_inj_cases {a b : Name} (ha : Name.wf a) (hb : Name.wf b)
    (h : Name.to_str a = Name.to_str b) :
    a = b ∨ (a = [] ∧ b = [⟨8, []⟩]) ∨ (b = [] ∧ a = [⟨8, []⟩]) := by
  unfold Name.to_str at h
  injection h with hhead h
  have hxmem : ∀ x ∈ a.map Component.to_str, (47 : Nat) ∉ x := by
    intro x hx
    rcases List.mem_map.mp hx with ⟨c, _, rfl⟩
    intro hc
    exact Component.to_str_ne_47 c 47 hc rfl
  have hymem : ∀ y ∈ b.map Component.to_str, (47 : Nat) ∉ y := by
    intro y hy
    rcases List.mem_map.mp hy with ⟨c, _, rfl⟩
    intro hc
    exact Component.to_str_ne_47 c 47 hc rfl
  rcases joinSlash_inj hxmem hymem h with heq | ⟨h1, h2⟩ | ⟨h1, h2⟩
  · exact Or.inl (map_to_str_inj ha hb heq)
  · right; left
    refine ⟨List.map_eq_nil_iff.mp h1, ?_⟩
    cases b with
    | nil => cases h2
    | cons d ds =>
      simp only [List.map_cons] at h2
      injection h2 with hh ht
      rw [Component.to_str_eq_nil.mp hh, List.map_eq_nil_iff.mp ht]
  · right; right
    refine ⟨List.map_eq_nil_iff.mp h1, ?_⟩
    cases a with
    | nil => cases h2
    | cons d ds =>
      simp only [List.map_cons] at h2
      injection h2 with hh ht
      rw [Component.to_str_eq_nil.mp hh, List.map_eq_nil_iff.mp ht]

/-- The canonical URI identifies a well-formed Name up to the single
collision between the root Name and the one-empty-GENERIC-component Name,
which both render as the bare separator. -/
theorem Name.uri_eq_iff {a b : Name} (ha : Name.wf a) (hb : Name.wf b) :
    Name.to_canonical_uri a = Name.to_canonical_uri b ↔
      (a = b ∨ (a = [] ∧ b = [⟨8, []⟩]) ∨ (b = [] ∧ a = [⟨8, []⟩])) := by
  constructor
  · exact Name.to_str_inj_cases ha hb
  · rintro (rfl | ⟨rfl, rfl⟩ | ⟨rfl, rfl⟩) <;> rfl

-- ## Prefix predicate characterization

theorem Name.is_prefix_of_cons {x y : Component} {xs ys : Name} :
    Name.is_prefix_of (x :: xs) (y :: ys) = (decide (x = y) && Name.is_prefix_of xs ys) := by
  simp only [Name.is_prefix_of, List.zip_cons_cons, List.all_cons, List.length_cons]
  rw [show Nat.ble (xs.length + 1) (ys.length + 1) = Nat.ble xs.length ys.length from rfl]
  rw [decide_eq_decide.mpr (Component.compare_eq_iff (a := x) (b := y))]
  cases decide (x = y) <;> cases Nat.ble xs.length ys.length <;> simp

theorem Name.is_prefix_of_iff : ∀ (a b : Name),
    Name.is_prefix_of a b = true ↔
      (a.length ≤ b.length ∧ ∀ i, i < a.length → a.get? i = b.get? i) := by
  intro a
  induction a with
  | nil =>
    intro b
    constructor
    · intro _
      exact ⟨Nat.zero_le _, fun i hi => absurd hi (by simp)⟩
    · intro _
      cases b <;> rfl
  | cons x xs ih =>
    intro b
    cases b with
    | nil =>
      constructor
      · intro h
        exact Bool.noConfusion h
      · rintro ⟨hle, _⟩
        simp at hle
    | cons y ys =>
      rw [Name.is_prefix_of_cons, Bool.and_eq_true, decide_eq_true_eq, ih ys]
      constructor
      · rintro ⟨rfl, hle, hall⟩
        refine ⟨by simpa using hle, ?_⟩
        intro i hi
        cases i with
        | zero => rfl
        | succ j =>
          simp only [List.get?_cons_succ]
          exact hall j (by simpa using hi)
      · rintro ⟨hle, hall⟩
        have h0 := hall 0 (by simp)
        simp only [List.get?_cons_zero, Option.some.injEq] at h0
        refine ⟨h0, by simpa using hle, ?_⟩
        intro j hj
        have := hall (j + 1) (by simpa using hj)
        simpa using this

-- ## Concrete-input helpers

/-- Character codes of a text string (python `str` values are embedded as
their character-code lists). -/
def strCodes (s : String) : List Nat := s.data.map Char.toNat

instance {e a : Type _} [DecidableEq e] [DecidableEq a] : DecidableEq (Except e a) := fun x y =>
  match x, y with
  | .ok u, .ok v =>
    if h : u = v then .isTrue (by rw [h]) else .isFalse (fun hc => h (Except.ok.inj hc))
  | .error u, .error v =>
    if h : u = v then .isTrue (by rw [h]) else .isFalse (fun hc => h (Except.error.inj hc))
  | .ok _, .error _ => .isFalse (fun hc => Except.noConfusion hc)
  | .error _, .ok _ => .isFalse (fun hc => Except.noConfusion hc)

-- ## Dict lemmas for the registerer

theorem lookupEntry_insert_self (m : List (List Nat × List Nat)) (key v : List Nat) :
    lookupEntry (insertEntry m key v) key = some v := by
  induction m with
  | nil => simp [insertEntry, lookupEntry]
  | cons p rest ih =>
    rcases p with ⟨k, w⟩
    by_cases hk : k = key
    · simp [insertEntry, lookupEntry, hk]
    · simp only [insertEntry, if_neg hk, lookupEntry]
      exact ih

theorem lookupEntry_insert_other (m : List (List Nat × List Nat)) (key v k : List Nat)
    (hk : k ≠ key) : lookupEntry (insertEntry m key v) k = lookupEntry m k := by
  induction m with
  | nil =>
    simp only [insertEntry, lookupEntry]
    rw [if_neg (fun hc => hk hc.symm)]
  | cons p rest ih =>
    rcases p with ⟨k', w⟩
    by_cases hk' : k' = key
    · subst hk'
      simp only [insertEntry, if_pos rfl, lookupEntry]
      rw [if_neg (fun hc => hk hc.symm), if_neg (fun hc => hk hc.symm)]
    · simp only [insertEntry, if_neg hk', lookupEntry]
      by_cases hkk : k' = k
      · rw [if_pos hkk, if_pos hkk]
      · rw [if_neg hkk, if_neg hkk]
        exact ih

theorem insertEntry_length_new (m : List (List Nat × List Nat)) (key v : List Nat)
    (h : lookupEntry m key = none) : (insertEntry m key v).length = m.length + 1 := by
  induction m with
  | nil => rfl
  | cons p rest ih =>
    rcases p with ⟨k, w⟩
    simp only [lookupEntry] at h
    by_cases hk : k = key
    · rw [if_pos hk] at h
      cases h
    · rw [if_neg hk] at h
      simp only [insertEntry, if_neg hk, List.length_cons, ih h]

-- ## Claim theorems

/-- Claim C1: Component canonical comparison is a total order over
Components, computed by three keys in order (type as unsigned integer,
then value byte count, then value bytes lexicographically as unsigned
bytes): comparison equals `.eq` exactly on equal components, `.lt` one way
is `.gt` the other way, exactly one of the three outcomes holds for every
pair, and the strict order is transitive.  The comparator is a total
function into `Ordering`, so a comparison call has no error path. -/
theorem claim_C1_component_total_order (a b c : Component) :
    (Component.compare a b = .eq ↔ a = b) ∧
    (Component.compare a b = .lt ↔ Component.compare b a = .gt) ∧
    ((Component.compare a b = .lt ∨ Component.compare a b = .eq ∨ Component.compare a b = .gt) ∧
      ¬(Component.compare a b = .lt ∧ Component.compare a b = .eq) ∧
      ¬(Component.compare a b = .lt ∧ Component.compare a b = .gt) ∧
      ¬(Component.compare a b = .eq ∧ Component.compare a b = .gt)) ∧
    (Component.compare a b = .lt → Component.compare b c = .lt →
      Component.compare a c = .lt) := by
  refine ⟨Component.compare_eq_iff, ?_, ?_, fun h1 h2 => Component.compare_lt_trans h1 h2⟩
  · rw [Component.compare_swap]
    rcases Component.compare b a with _ | _ | _ <;> simp [Ordering.swap]
  · rcases Component.compare a b with _ | _ | _ <;> simp

/-- Witness for C1: the transitivity and flip clauses applied at concrete
components taken from the repository's comparison table. -/
theorem claim_C1_witness :
    Component.compare ⟨1, [0]⟩ ⟨1, [0, 1]⟩ = .lt ∧
    Component.compare ⟨1, [0, 1]⟩ ⟨2, []⟩ = .lt ∧
    Component.compare ⟨1, [0]⟩ ⟨2, []⟩ = .lt :=
  ⟨by decide, by decide,
    (claim_C1_component_total_order ⟨1, [0]⟩ ⟨1, [0, 1]⟩ ⟨2, []⟩).2.2.2 (by decide) (by decide)⟩

/-- Claim C2: Name canonical comparison is a total order: lexicographic
component by component via the Component comparator; a strict prefix
orders first; the root (empty) Name is the global minimum. -/
theorem claim_C2_name_total_order (a b c : Name) :
    (Name.compare a b = .eq ↔ a = b) ∧
    (Name.compare a b = .lt ↔ Name.compare b a = .gt) ∧
    ((Name.compare a b = .lt ∨ Name.compare a b = .eq ∨ Name.compare a b = .gt) ∧
      ¬(Name.compare a b = .lt ∧ Name.compare a b = .eq) ∧
      ¬(Name.compare a b = .lt ∧ Name.compare a b = .gt) ∧
      ¬(Name.compare a b = .eq ∧ Name.compare a b = .gt)) ∧
    (Name.compare a b = .lt → Name.compare b c = .lt → Name.compare a c = .lt) ∧
    (∀ t : Name, t ≠ [] → Name.compare a (a ++ t) = .lt) ∧
    (a ≠ [] → Name.compare [] a = .lt) := by
  refine ⟨Name.compare_name_eq_iff, ?_, ?_, fun h1 h2 => Name.compare_name_lt_trans h1 h2,
    fun t ht => Name.compare_lt_of_strict_pre a t ht, ?_⟩
  · rw [Name.compare_name_swap]
    rcases Name.compare b a with _ | _ | _ <;> simp [Ordering.swap]
  · rcases Name.compare a b with _ | _ | _ <;> simp
  · intro ha
    cases a with
    | nil => exact absurd rfl ha
    | cons x xs => rfl

/-- Witness for C2: minimality of the root and the prefix clause at
concrete names, through the claim theorem. -/
theorem claim_C2_witness :
    Name.compare [⟨8, [68]⟩] ([⟨8, [68]⟩] ++ [⟨8, [70]⟩]) = .lt ∧
    Name.compare [] [⟨8, [68]⟩] = .lt :=
  ⟨(claim_C2_name_total_order [⟨8, [68]⟩] [] []).2.2.2.2.1 [⟨8, [70]⟩] (by decide),
   (claim_C2_name_total_order [⟨8, [68]⟩] [] []).2.2.2.2.2 (by decide)⟩

/-- Claim C3: `is_prefix(a, b)` is true exactly when `len(a) <= len(b)`
and every component of `a` equals the component of `b` at the same
position; the root Name is a prefix of every Name and every Name is a
prefix of itself. -/
theorem claim_C3_is_prefix_law (a b : Name) :
    (Name.is_prefix_of a b = true ↔
      (a.length ≤ b.length ∧ ∀ i, i < a.length → a.get? i = b.get? i)) ∧
    Name.is_prefix_of [] a = true ∧
    Name.is_prefix_of a a = true := by
  refine ⟨Name.is_prefix_of_iff a b, ?_, ?_⟩
  · cases a <;> rfl
  · exact (Name.is_prefix_of_iff a a).mpr ⟨Nat.le_refl _, fun i _ => rfl⟩

/-- Witness for C3: the root-prefix and reflexivity clauses at a concrete
name, through the claim theorem. -/
theorem claim_C3_witness :
    Name.is_prefix_of [] [⟨8, [66]⟩] = true ∧
    Name.is_prefix_of [⟨8, [66]⟩] [⟨8, [66]⟩] = true :=
  ⟨(claim_C3_is_prefix_law [⟨8, [66]⟩] []).2.1, (claim_C3_is_prefix_law [⟨8, [66]⟩] []).2.2⟩

/-- Claim C4 counterexample: the numeric builders do not emit the shortest
big-endian representation.  On the repository's own test value
(tests/encoding/name_test.py test_number), `from_timestamp(15686790223318112)`
carries the eight-byte value `00 37 bb 0d 76 ed 4c 60` with a leading zero
byte, although the seven-byte sequence `37 bb 0d 76 ed 4c 60` already
represents the same number big-endian. -/
theorem claim_C4_counterexample :
    Component.from_timestamp 15686790223318112
      = ⟨36, [0, 55, 187, 13, 118, 237, 76, 96]⟩ ∧
    fromBE [55, 187, 13, 118, 237, 76, 96] = 15686790223318112 ∧
    ([55, 187, 13, 118, 237, 76, 96] : List Nat).length
      < (Component.from_timestamp 15686790223318112).value.length := by
  exact ⟨by decide, by decide, by decide⟩

/-- Claim C4 amended: each numeric convention builder returns a Component
of its reserved type whose value is the big-endian encoding of n in the
smallest of the width classes 1, 2, 4 or 8 bytes that holds n (so n = 0
encodes as a single zero byte, and a number needing e.g. seven bytes is
padded to eight); for every representable n the value reads back as n;
from_segment(13) serializes as 0x21 0x01 0x0D. -/
theorem claim_C4_numeric_builders (n : Nat) :
    ((Component.from_segment n).typ = 33 ∧ (Component.from_byte_offset n).typ = 34 ∧
      (Component.from_version n).typ = 35 ∧ (Component.from_timestamp n).typ = 36 ∧
      (Component.from_sequence_num n).typ = 37) ∧
    (Component.from_number n 33).value.length = numWidth n ∧
    (numWidth n = 1 ∨ numWidth n = 2 ∨ numWidth n = 4 ∨ numWidth n = 8) ∧
    (n ≤ 18446744073709551615 → fromBE (Component.from_number n 33).value = n) ∧
    (∀ w, (w = 1 ∨ w = 2 ∨ w = 4 ∨ w = 8) → n < 256 ^ w → numWidth n ≤ w) ∧
    Component.encode (Component.from_segment 13) = .ok [33, 1, 13] := by
  refine ⟨⟨rfl, rfl, rfl, rfl, rfl⟩, beFixed_length _ _, ?_, ?_, ?_, by decide⟩
  · unfold numWidth
    split_ifs <;> simp
  · intro hn
    apply fromBE_beFixed
    unfold numWidth
    split_ifs with h1 h2 h3
    · have : (256 : Nat) ^ 1 = 256 := by norm_num
      omega
    · have : (256 : Nat) ^ 2 = 65536 := by norm_num
      omega
    · have : (256 : Nat) ^ 4 = 4294967296 := by norm_num
      omega
    · have : (256 : Nat) ^ 8 = 18446744073709551616 := by norm_num
      omega
  · intro w hw hnw
    unfold numWidth
    rcases hw with rfl | rfl | rfl | rfl <;> norm_num at hnw <;> split_ifs <;> omega

/-- Witness for C4: the read-back and width-minimality clauses at n = 13,
through the amended theorem. -/
theorem claim_C4_witness :
    fromBE (Component.from_number 13 33).value = 13 ∧ numWidth 13 ≤ 1 :=
  ⟨(claim_C4_numeric_builders 13).2.2.2.1 (by norm_num),
   (claim_C4_numeric_builders 13).2.2.2.2.1 1 (Or.inl rfl) (by norm_num)⟩

/-- Claim C5 counterexample: a whitespace-only input does not yield the
root Name.  The repository's test (name_test.py line 160) pins
`Name.to_str(Name.from_str(' ')) == '/%20'`: the single-space string
parses as one GENERIC component holding the space byte, not as the empty
Name. -/
theorem claim_C5_counterexample :
    Name.from_str [32] = .ok [⟨8, [32]⟩] ∧
    Name.from_str [32] ≠ .ok ([] : Name) := by
  exact ⟨rfl, by decide⟩

/-- Claim C5 amended: Name.from_string splits its input on the slash
separator, drops at most one leading and at most one trailing empty
segment, parses every remaining segment (interior empty ones included,
as legal empty-valued GENERIC components) with the Component text codec,
and yields the root Name for the empty input or a single separator —
but not for other whitespace-only inputs, which parse as ordinary
components of the whitespace bytes; '/hello/world', 'hello/world' and
'hello/world/' all render back to '/hello/world'. -/
theorem claim_C5_name_from_str :
    Name.from_str (strCodes (r"/hello/world"))
      = .ok [⟨8, strCodes (r"hello")⟩, ⟨8, strCodes (r"world")⟩] ∧
    Name.from_str (strCodes (r"hello/world")) = Name.from_str (strCodes (r"/hello/world")) ∧
    Name.from_str (strCodes (r"hello/world/")) = Name.from_str (strCodes (r"/hello/world")) ∧
    (Name.from_str (strCodes (r"/hello/world"))).map Name.to_str
      = .ok (strCodes (r"/hello/world")) ∧
    Name.from_str [] = .ok [] ∧
    Name.from_str [47] = .ok [] ∧
    Name.from_str [47, 47] = .ok [⟨8, []⟩] ∧
    (Name.from_str (strCodes (r"/hello//world"))).map Name.to_str
      = .ok (strCodes (r"/hello//world")) ∧
    Name.from_str [32] = .ok [⟨8, [32]⟩] :=
  ⟨rfl, rfl, rfl, rfl, rfl, rfl, rfl, rfl, rfl⟩

/-- Claim C6: the Component text codec reproduces the concrete
round-trips of the test suite: 'ndn-python' is a ten-byte GENERIC
component, 'foo%25bar' percent-decodes to the seven value bytes of
'foo%bar' and renders back escaped, and the empty default-GENERIC
component serializes as 08 00. -/
theorem claim_C6_component_text_roundtrips :
    Component.from_str (strCodes (r"ndn-python")) = .ok ⟨8, strCodes (r"ndn-python")⟩ ∧
    Component.encode ⟨8, strCodes (r"ndn-python")⟩
      = .ok ([8, 10] ++ strCodes (r"ndn-python")) ∧
    Component.to_str ⟨8, strCodes (r"ndn-python")⟩ = strCodes (r"ndn-python") ∧
    Component.from_str (strCodes (r"foo%25bar")) = .ok ⟨8, strCodes (r"foo%bar")⟩ ∧
    (strCodes (r"foo%bar")).length = 7 ∧
    Component.to_str ⟨8, strCodes (r"foo%bar")⟩ = strCodes (r"foo%25bar") ∧
    Component.from_bytes [] = ⟨8, []⟩ ∧
    Component.encode (Component.from_bytes []) = .ok [8, 0] :=
  ⟨rfl, rfl, rfl, rfl, rfl, rfl, rfl, rfl⟩

/-- Claim C7: Component.from_string fails with a decode error — and never
coerces the input to a GENERIC value — on every malformed segment of the
test suite: a signed or malformed decimal TYPE prefix, a second unescaped
separator, a separator at position 0, an invalid percent escape, and an
unescaped slash. -/
theorem claim_C7_from_str_rejects_malformed :
    Component.from_str (strCodes (r"-1=A")) = .error () ∧
    Component.from_str (strCodes (r"+=A")) = .error () ∧
    Component.from_str (strCodes (r"1=2=A")) = .error () ∧
    Component.from_str (strCodes (r"==A")) = .error () ∧
    Component.from_str (strCodes (r"%%")) = .error () ∧
    Component.from_str (strCodes (r"ABCD%EF%0")) = .error () ∧
    Component.from_str (strCodes (r"ABCD%GH")) = .error () ∧
    Component.from_str (strCodes (r"/")) = .error () ∧
    Component.from_str (strCodes (r"a/b")) = .error () :=
  ⟨rfl, rfl, rfl, rfl, rfl, rfl, rfl, rfl, rfl⟩

/-- Claim C8 counterexample: the registration mapping is keyed by the
canonical URI string, and that key does not separate all distinct Names:
the root Name and the Name of one empty GENERIC component are different
Names with the same canonical URI, so registering either one touches the
same mapping key. -/
theorem claim_C8_counterexample :
    ([] : Name) ≠ [⟨8, []⟩] ∧
    Name.to_canonical_uri [] = Name.to_canonical_uri [⟨8, []⟩] ∧
    DpdkRegisterer.register ⟨true, []⟩ [] (.ok [65])
      = DpdkRegisterer.register ⟨true, []⟩ [⟨8, []⟩] (.ok [65]) := by
  exact ⟨by decide, rfl, rfl⟩

/-- Claim C8 amended: the prefix-registration client produces the URI it
sends to the forwarder with the canonical Name-to-text rendering
(Name.to_string) and keys fib_entries by that URI string; for well-formed
Names, equality of the URI keys coincides with Component/Name equality in
every case except the collision between the root Name and the Name of a
single empty GENERIC component, which share the URI of the bare
separator. -/
theorem claim_C8_register_uri (r : DpdkRegisterer) (a b : Name)
    (ha : Name.wf a) (hb : Name.wf b) (resp : Except Unit (List Nat))
    (out : Bool × List Nat × DpdkRegisterer)
    (h : r.register a resp = .ok out) :
    out.2.1 = Name.to_str a ∧
    (Name.to_canonical_uri a = Name.to_canonical_uri b ↔
      (a = b ∨ (a = [] ∧ b = [⟨8, []⟩]) ∨ (b = [] ∧ a = [⟨8, []⟩]))) := by
  constructor
  · unfold DpdkRegisterer.register at h
    by_cases hr : r.running
    · rw [if_pos hr] at h
      cases resp with
      | ok fid =>
        injection h with h
        rw [← h]
        rfl
      | error e =>
        injection h with h
        rw [← h]
        rfl
    · rw [if_neg hr] at h
      cases h
  · exact Name.uri_eq_iff ha hb

/-- Witness for C8: the URI-equality characterization at the concrete pair
of a one-component name and the root, through the amended theorem. -/
theorem claim_C8_witness :
    Name.to_canonical_uri [⟨8, [110]⟩] = Name.to_canonical_uri [] ↔
      (([⟨8, [110]⟩] : Name) = [] ∨
        (([⟨8, [110]⟩] : Name) = [] ∧ ([] : Name) = [⟨8, []⟩]) ∨
        (([] : Name) = [] ∧ ([⟨8, [110]⟩] : Name) = [⟨8, []⟩])) :=
  (claim_C8_register_uri ⟨true, []⟩ [⟨8, [110]⟩] [] (by decide) (by decide) (.ok [65])
    (true, [47, 110], ⟨true, [([47, 110], [65])]⟩) rfl).2

/-- Claim C9: DpdkRegisterer.unregister never removes an entry from
fib_entries: for every name and every forwarder response, when the call
returns (True or False) the mapping is unchanged; on a successful
unregister the entry for the name's URI still holds the old handle, and a
repeated unregister of the same name sends a delete with that same stale
handle again. -/
theorem claim_C9_unregister_frame (r : DpdkRegisterer) (name : Name)
    (resp : Except Unit Bool) (out : Bool × Option (List Nat) × DpdkRegisterer)
    (h : r.unregister name resp = .ok out) :
    out.2.2.fib_entries = r.fib_entries ∧
    (out.1 = true →
      ∃ fid, lookupEntry r.fib_entries (Name.to_canonical_uri name) = some fid ∧
        out.2.1 = some fid ∧
        ∀ (resp' : Except Unit Bool) (out' : Bool × Option (List Nat) × DpdkRegisterer),
          out.2.2.unregister name resp' = .ok out' → out'.2.1 = some fid) := by
  unfold DpdkRegisterer.unregister at h
  by_cases hr : r.running
  · rw [if_pos hr] at h
    rcases hl : lookupEntry r.fib_entries (Name.to_canonical_uri name) with _ | fid
    · rw [hl] at h
      injection h with h
      subst h
      exact ⟨rfl, fun hfalse => Bool.noConfusion hfalse⟩
    · rw [hl] at h
      cases resp with
      | ok bv =>
        injection h with h
        subst h
        constructor
        · rfl
        · intro htrue
          refine ⟨fid, ?_, ?_, ?_⟩
          · rfl
          · rfl
          · intro resp' out' h'
            unfold DpdkRegisterer.unregister at h'
            rw [if_pos hr, hl] at h'
            cases resp' with
            | ok _ =>
              injection h' with h'
              rw [← h']
            | error _ =>
              injection h' with h'
              rw [← h']
      | error e =>
        injection h with h
        subst h
        exact ⟨rfl, fun hfalse => Bool.noConfusion hfalse⟩
  · rw [if_neg hr] at h
    cases h

/-- Witness for C9: a successful unregister on a one-entry state, through
the claim theorem: the mapping still holds the handle afterwards. -/
theorem claim_C9_witness :
    (true, some [65], (⟨true, [([47, 110], [65])]⟩ : DpdkRegisterer)).2.2.fib_entries
      = [([47, 110], [65])] :=
  (claim_C9_unregister_frame ⟨true, [([47, 110], [65])]⟩ [⟨8, [110]⟩] (.ok true)
    (true, some [65], ⟨true, [([47, 110], [65])]⟩) rfl).1

/-- Claim C10: register is atomic on error: when the forwarder's
insert-FIB response lacks the expected fields (the KeyError from
GqlClient.insert_fib), register returns False and fib_entries is
unchanged; on success it returns True and updates exactly the binding of
the name's canonical URI to the returned id — the entry count grows by
one exactly when the URI was not yet registered, and no other key
changes. -/
theorem claim_C10_register_atomic (r : DpdkRegisterer) (name : Name)
    (resp : Except Unit (List Nat)) (out : Bool × List Nat × DpdkRegisterer)
    (h : r.register name resp = .ok out) :
    (∀ e, resp = .error e → out.1 = false ∧ out.2.2 = r) ∧
    (∀ fid, resp = .ok fid → out.1 = true ∧
      out.2.2.fib_entries = insertEntry r.fib_entries (Name.to_canonical_uri name) fid ∧
      lookupEntry out.2.2.fib_entries (Name.to_canonical_uri name) = some fid ∧
      (∀ k, k ≠ Name.to_canonical_uri name →
        lookupEntry out.2.2.fib_entries k = lookupEntry r.fib_entries k) ∧
      (lookupEntry r.fib_entries (Name.to_canonical_uri name) = none →
        out.2.2.fib_entries.length = r.fib_entries.length + 1)) := by
  unfold DpdkRegisterer.register at h
  by_cases hr : r.running
  · rw [if_pos hr] at h
    constructor
    · rintro e rfl
      injection h with h
      subst h
      exact ⟨rfl, rfl⟩
    · rintro fid rfl
      injection h with h
      subst h
      refine ⟨rfl, rfl, lookupEntry_insert_self _ _ _, ?_, ?_⟩
      · intro k hk
        exact lookupEntry_insert_other _ _ _ _ hk
      · intro hnone
        exact insertEntry_length_new _ _ _ hnone
  · rw [if_neg hr] at h
    cases h

/-- Witness for C10: both branches at concrete inputs, through the claim
theorem: a failed insert leaves the empty mapping empty, and a successful
insert on the empty mapping returns True. -/
theorem claim_C10_witness :
    ((false, [47, 110], (⟨true, []⟩ : DpdkRegisterer)).1 = false ∧
      (false, [47, 110], (⟨true, []⟩ : DpdkRegisterer)).2.2 = (⟨true, []⟩ : DpdkRegisterer)) ∧
    (true, [47, 110], (⟨true, [([47, 110], [65])]⟩ : DpdkRegisterer)).1 = true :=
  ⟨(claim_C10_register_atomic ⟨true, []⟩ [⟨8, [110]⟩] (.error ())
      (false, [47, 110], ⟨true, []⟩) rfl).1 () rfl,
   ((claim_C10_register_atomic ⟨true, []⟩ [⟨8, [110]⟩] (.ok [65])
      (true, [47, 110], ⟨true, [([47, 110], [65])]⟩) rfl).2 [65] rfl).1⟩
